import Mathlib

/-!
Verification of `src/scheduling/solver.py` (minimum makespan on identical
parallel machines via a CP model).

The Python code builds a CP-SAT model: one boolean variable per
(machine, job) pair (`_add_bool_vars`), a coverage constraint per job
(`_add_single_machine_constraints`), one load variable per machine equal to
the dot product of its row with the durations
(`_add_machine_makespan_constraints`), and a global makespan variable equal
to the maximum load (`_define_objective`), minimized.  The external CP-SAT
solver is modelled by its contract: it returns an optimal feasible solution
of the model (a canonical one is fixed for determinism of the embedding),
or none when the model is infeasible.  `_print_results` is modelled as a
trace of print events; `schedule` returns `solver.ObjectiveValue()`.
-/

namespace Scheduling

/-- Dot product of a 0/1 row of assignment variables with the job durations,
embedding `np.dot(jobs[i], self.job_times)`. -/
def dot : List Bool → List Nat → Nat
  | b :: bs, t :: ts => (if b then t else 0) + dot bs ts
  | _, _ => 0

/-- Load of each machine: one dot product per row, the values forced for the
`machine_makespan` variables by `_add_machine_makespan_constraints`. -/
def rowLoads (jobTimes : List Nat) (x : List (List Bool)) : List Nat :=
  x.map (fun row => dot row jobTimes)

/-- Value forced for the global `makespan` variable by `AddMaxEquality` in
`_define_objective`: the maximum machine load. -/
def solMakespan (jobTimes : List Nat) (x : List (List Bool)) : Nat :=
  (rowLoads jobTimes x).foldr max 0

/-- Number of machines on which job `j` is scheduled:
`sum(jobs[i][j] for i in range(self.n_machines))`. -/
def colSum (x : List (List Bool)) (j : Nat) : Nat :=
  match x with
  | [] => 0
  | row :: rest => (if row.getD j false then 1 else 0) + colSum rest j

/-- The coverage constraints from `_add_single_machine_constraints`: each job
is scheduled on exactly one machine. -/
def covers (n : Nat) (x : List (List Bool)) : Bool :=
  (List.range n).all (fun j => colSum x j == 1)

/-- Shape of the boolean variable matrix built by `_add_bool_vars`: one row
per machine, one entry per job. -/
def wellFormed (m n : Nat) (x : List (List Bool)) : Bool :=
  x.length == m && x.all (fun row => row.length == n)

/-- A candidate solution is feasible iff it has the right shape and satisfies
every coverage constraint of the model. -/
def feasible (m n : Nat) (x : List (List Bool)) : Bool :=
  wellFormed m n x && covers n x

/-- All boolean rows of length `n` (candidate values of one machine's
variables). -/
def allRows : Nat → List (List Bool)
  | 0 => [[]]
  | n + 1 => (allRows n).flatMap (fun r => [false :: r, true :: r])

/-- All candidate matrices with `m` rows, each of length `n`. -/
def allMatrices : Nat → Nat → List (List (List Bool))
  | 0, _ => [[]]
  | m + 1, n => (allRows n).flatMap (fun r => (allMatrices m n).map (fun x => r :: x))

/-- The feasible solutions of the model built by `Scheduler.schedule`. -/
def feasList (jobTimes : List Nat) (m : Nat) : List (List (List Bool)) :=
  (allMatrices m jobTimes.length).filter (feasible m jobTimes.length)

/-- First solution of minimal makespan in a candidate list. -/
def pickBest (jobTimes : List Nat) : List (List (List Bool)) → Option (List (List Bool))
  | [] => none
  | x :: xs =>
    match pickBest jobTimes xs with
    | none => some x
    | some y => if solMakespan jobTimes x ≤ solMakespan jobTimes y then some x else some y

/-- `CpSolver.Solve` on the model of `Scheduler.schedule`, by the solver's
contract: an optimal feasible solution of the model (a canonical one), or
`none` when the model is infeasible. -/
def solve (jobTimes : List Nat) (m : Nat) : Option (List (List Bool)) :=
  pickBest jobTimes (feasList jobTimes m)

/-- One line printed by `Scheduler._print_results`. -/
inductive PrintEvent where
  | makespanLine (v : Nat)
  | machineLine (i : Nat) (scheduled : List Nat)
deriving DecidableEq, Repr

/-- Indices `j` with `solver.Value(jobs[i][j])` true, as printed for machine
`i`: `tuple(index for index, job in enumerate(row) if solver.Value(job))`. -/
def scheduledJobs (row : List Bool) : List Nat :=
  (row.enum.filter (fun p => p.2)).map (fun p => p.1)

/-- Trace of `Scheduler._print_results`: the objective line, then one line
per machine. -/
def printResults (objective : Nat) (x : List (List Bool)) : List PrintEvent :=
  PrintEvent.makespanLine objective ::
    x.enum.map (fun p => PrintEvent.machineLine p.1 (scheduledJobs p.2))

/-- Failure outcomes of a run.  The code contains no `InvalidInput` error and
raises nothing itself; an infeasible model makes the solver run fail.  The
`invalidInput` constructor exists only so the spec's error claim is statable:
no code path produces it. -/
inductive SolveErr where
  | invalidInput
  | infeasible
deriving DecidableEq, Repr

/-- Embedding of the top-level `schedule` / `Scheduler.schedule`: build the
model, solve it, print the results, return `solver.ObjectiveValue()` (the
value of the minimized makespan variable) together with the print trace. -/
def scheduleRun (jobTimes : List Nat) (nMachines : Nat) :
    Except SolveErr (Nat × List PrintEvent) :=
  match solve jobTimes nMachines with
  | none => .error .infeasible
  | some x => .ok (solMakespan jobTimes x, printResults (solMakespan jobTimes x) x)

/-- The numeric value returned by `schedule` on a successful run. -/
def scheduleValue (jobTimes : List Nat) (nMachines : Nat) : Nat :=
  match scheduleRun jobTimes nMachines with
  | .ok (v, _) => v
  | .error _ => 0

/-- The lines printed during a run. -/
def traceOf (jobTimes : List Nat) (nMachines : Nat) : List PrintEvent :=
  match scheduleRun jobTimes nMachines with
  | .ok (_, tr) => tr
  | .error _ => []

/-- Following the spec's words: the load of machine `i` under a total
assignment of jobs to machines (a list `g` with `g[j]` the machine of job
`j`): the sum of the durations of the jobs assigned to machine `i`. -/
def specLoad : List Nat → List Nat → Nat → Nat
  | t :: ts, v :: vs, i => (if v = i then t else 0) + specLoad ts vs i
  | _, _, _ => 0

/-- Following the spec's words: all total assignments of `n` jobs to `m`
machines, encoded as lists of machine indices below `m`. -/
def allFuns : Nat → Nat → List (List Nat)
  | 0, _ => [[]]
  | n + 1, m => (List.range m).flatMap (fun v => (allFuns n m).map (fun g => v :: g))

/-- Following the spec's words: the makespan of a total assignment, the
maximum over machines of the load. -/
def specMakespan (jobTimes : List Nat) (m : Nat) (g : List Nat) : Nat :=
  ((List.range m).map (specLoad jobTimes g)).foldr max 0

/-- Minimum of a list of naturals (`0` on the empty list). -/
def listMin : List Nat → Nat
  | [] => 0
  | a :: l => l.foldr min a

/-- Following the spec's words: the optimal makespan, the minimum over all
total assignments of jobs to machines of the maximum machine load. -/
def specOptMakespan (jobTimes : List Nat) (m : Nat) : Nat :=
  listMin ((allFuns jobTimes.length m).map (specMakespan jobTimes m))

/-- Indicator matrix of a total assignment. -/
def matrixOf (m : Nat) (g : List Nat) : List (List Bool) :=
  (List.range m).map (fun i => g.map (fun v => v == i))

/-- Index of the first row whose entry in column `j` is true. -/
def firstTrue (x : List (List Bool)) (j : Nat) : Nat :=
  match x with
  | [] => 0
  | row :: rest => if row.getD j false then 0 else firstTrue rest j + 1

/-- Total assignment read off a feasible matrix. -/
def funOf (x : List (List Bool)) (n : Nat) : List Nat :=
  (List.range n).map (firstTrue x)

/-- A solver run conforming to the CP-SAT contract: any feasible solution of
the model minimizing the makespan variable. -/
def optimalSol (jobTimes : List Nat) (m : Nat) (x : List (List Bool)) : Prop :=
  x ∈ feasList jobTimes m ∧
    ∀ y ∈ feasList jobTimes m, solMakespan jobTimes x ≤ solMakespan jobTimes y

theorem pickBest_eq_none (jt : List Nat) (l : List (List (List Bool))) :
    pickBest jt l = none ↔ l = [] := by
  cases l with
  | nil => simp [pickBest]
  | cons a l =>
    rw [pickBest]
    cases pickBest jt l with
    | none => simp
    | some y =>
      by_cases hle : solMakespan jt a ≤ solMakespan jt y
      · simp [hle]
      · simp [hle]

theorem pickBest_mem (jt : List Nat) :
    ∀ (l : List (List (List Bool))) (x), pickBest jt l = some x → x ∈ l := by
  intro l
  induction l with
  | nil => intro x h; simp [pickBest] at h
  | cons a l ih =>
    intro x h
    cases hp : pickBest jt l with
    | none =>
      simp only [pickBest, hp] at h
      injection h with h
      exact h ▸ List.mem_cons_self a l
    | some y =>
      simp only [pickBest, hp] at h
      by_cases hle : solMakespan jt a ≤ solMakespan jt y
      · rw [if_pos hle] at h
        injection h with h
        exact h ▸ List.mem_cons_self a l
      · rw [if_neg hle] at h
        injection h with h
        exact List.mem_cons_of_mem a (h ▸ ih y hp)

theorem pickBest_le (jt : List Nat) :
    ∀ (l : List (List (List Bool))) (x), pickBest jt l = some x →
      ∀ y ∈ l, solMakespan jt x ≤ solMakespan jt y := by
  intro l
  induction l with
  | nil => intro x h; simp [pickBest] at h
  | cons a l ih =>
    intro x h y hy
    cases hp : pickBest jt l with
    | none =>
      simp only [pickBest, hp] at h
      injection h with h
      subst h
      have : l = [] := (pickBest_eq_none jt l).1 hp
      subst this
      rcases List.mem_cons.1 hy with rfl | hy
      · exact Nat.le_refl _
      · simp at hy
    | some z =>
      simp only [pickBest, hp] at h
      by_cases hle : solMakespan jt a ≤ solMakespan jt z
      · rw [if_pos hle] at h
        injection h with h
        subst h
        rcases List.mem_cons.1 hy with rfl | hy
        · exact Nat.le_refl _
        · exact Nat.le_trans hle (ih z hp y hy)
      · rw [if_neg hle] at h
        injection h with h
        subst h
        rcases List.mem_cons.1 hy with rfl | hy
        · exact Nat.le_of_not_le hle
        · exact ih z hp y hy

theorem pickBest_isSome (jt : List Nat) (l : List (List (List Bool))) (h : l ≠ []) :
    ∃ x, pickBest jt l = some x := by
  cases l with
  | nil => exact absurd rfl h
  | cons a l =>
    rw [pickBest]
    cases pickBest jt l with
    | none => exact ⟨a, rfl⟩
    | some y =>
      by_cases hle : solMakespan jt a ≤ solMakespan jt y
      · exact ⟨a, if_pos hle⟩
      · exact ⟨y, if_neg hle⟩

theorem foldr_min_le (l : List Nat) (a : Nat) :
    l.foldr min a ≤ a ∧ ∀ b ∈ l, l.foldr min a ≤ b := by
  induction l with
  | nil => simp
  | cons c l ih =>
    refine ⟨?_, ?_⟩
    · exact Nat.le_trans (Nat.min_le_right _ _) ih.1
    · intro b hb
      rcases List.mem_cons.1 hb with rfl | hb
      · exact Nat.min_le_left _ _
      · exact Nat.le_trans (Nat.min_le_right _ _) (ih.2 b hb)

theorem foldr_min_mem (l : List Nat) (a : Nat) :
    l.foldr min a = a ∨ l.foldr min a ∈ l := by
  induction l with
  | nil => exact Or.inl rfl
  | cons c l ih =>
    simp only [List.foldr_cons]
    rcases min_cases c (l.foldr min a) with ⟨h, _⟩ | ⟨h, _⟩
    · rw [h]; exact Or.inr (List.mem_cons_self c l)
    · rw [h]
      rcases ih with ih | ih
      · exact Or.inl ih
      · exact Or.inr (List.mem_cons_of_mem c ih)

theorem listMin_mem (l : List Nat) (h : l ≠ []) : listMin l ∈ l := by
  cases l with
  | nil => exact absurd rfl h
  | cons a l =>
    rw [listMin]
    rcases foldr_min_mem l a with h' | h'
    · rw [h']; exact List.mem_cons_self a l
    · exact List.mem_cons_of_mem a h'

theorem listMin_le (l : List Nat) : ∀ a ∈ l, listMin l ≤ a := by
  intro a ha
  cases l with
  | nil => simp at ha
  | cons b l =>
    rw [listMin]
    rcases List.mem_cons.1 ha with rfl | ha
    · exact (foldr_min_le l a).1
    · exact (foldr_min_le l b).2 a ha

theorem mem_allRows : ∀ (n : Nat) (r : List Bool), r ∈ allRows n ↔ r.length = n := by
  intro n
  induction n with
  | zero =>
    intro r
    rw [allRows]
    exact List.mem_singleton.trans List.length_eq_zero.symm
  | succ n ih =>
    intro r
    rw [allRows, List.mem_flatMap]
    constructor
    · rintro ⟨a, ha, hr⟩
      simp at hr
      rcases hr with rfl | rfl
      · simp [(ih a).1 ha]
      · simp [(ih a).1 ha]
    · intro hr
      cases r with
      | nil => simp at hr
      | cons b r => exact ⟨r, (ih r).2 (by simpa using hr), by cases b <;> simp⟩

theorem mem_allMatrices : ∀ (m n : Nat) (x : List (List Bool)),
    x ∈ allMatrices m n ↔ x.length = m ∧ ∀ row ∈ x, row.length = n := by
  intro m
  induction m with
  | zero =>
    intro n x
    rw [allMatrices]
    simp only [List.mem_singleton]
    constructor
    · rintro rfl
      exact ⟨rfl, fun row h => absurd h (List.not_mem_nil row)⟩
    · rintro ⟨h, _⟩
      exact List.length_eq_zero.1 h
  | succ m ih =>
    intro n x
    rw [allMatrices, List.mem_flatMap]
    constructor
    · rintro ⟨r, hr, hx⟩
      simp only [List.mem_map] at hx
      obtain ⟨y, hy, rfl⟩ := hx
      obtain ⟨hylen, hyrows⟩ := (ih n y).1 hy
      refine ⟨by simp [hylen], ?_⟩
      intro row hrow
      rcases List.mem_cons.1 hrow with rfl | hrow
      · exact (mem_allRows n row).1 hr
      · exact hyrows row hrow
    · rintro ⟨hlen, hrows⟩
      cases x with
      | nil => simp at hlen
      | cons r y =>
        refine ⟨r, (mem_allRows n r).2 (hrows r (List.mem_cons_self r y)), ?_⟩
        simp only [List.mem_map]
        refine ⟨y, (ih n y).2 ⟨by simpa using hlen, ?_⟩, rfl⟩
        intro row hrow
        exact hrows row (List.mem_cons_of_mem r hrow)

theorem mem_allFuns : ∀ (n m : Nat) (g : List Nat),
    g ∈ allFuns n m ↔ g.length = n ∧ ∀ v ∈ g, v < m := by
  intro n
  induction n with
  | zero =>
    intro m g
    rw [allFuns]
    simp only [List.mem_singleton]
    constructor
    · rintro rfl
      exact ⟨rfl, fun v h => absurd h (List.not_mem_nil v)⟩
    · rintro ⟨h, _⟩
      exact List.length_eq_zero.1 h
  | succ n ih =>
    intro m g
    rw [allFuns, List.mem_flatMap]
    constructor
    · rintro ⟨v, hv, hg⟩
      simp only [List.mem_map] at hg
      obtain ⟨g', hg', rfl⟩ := hg
      obtain ⟨hlen, hlt⟩ := (ih m g').1 hg'
      refine ⟨by simp [hlen], ?_⟩
      intro w hw
      rcases List.mem_cons.1 hw with rfl | hw
      · exact List.mem_range.1 hv
      · exact hlt w hw
    · rintro ⟨hlen, hlt⟩
      cases g with
      | nil => simp at hlen
      | cons v g' =>
        refine ⟨v, List.mem_range.2 (hlt v (List.mem_cons_self v g')), ?_⟩
        simp only [List.mem_map]
        refine ⟨g', (ih m g').2 ⟨by simpa using hlen, ?_⟩, rfl⟩
        intro w hw
        exact hlt w (List.mem_cons_of_mem v hw)

theorem feasible_iff (m n : Nat) (x : List (List Bool)) :
    feasible m n x = true ↔
      (x.length = m ∧ ∀ row ∈ x, row.length = n) ∧ ∀ j < n, colSum x j = 1 := by
  rw [feasible, wellFormed, covers]
  simp [List.all_eq_true, List.mem_range, and_assoc]

theorem colSum_zero_getD : ∀ (x : List (List Bool)) (j : Nat), colSum x j = 0 →
    ∀ i, (x.getD i []).getD j false = false := by
  intro x
  induction x with
  | nil => intro j _ i; cases i <;> rfl
  | cons row rest ih =>
    intro j h i
    rw [colSum] at h
    by_cases hr : row.getD j false = true
    · rw [if_pos hr] at h
      exact absurd h (by omega)
    · rw [if_neg hr] at h
      rw [Nat.zero_add] at h
      cases i with
      | zero => simpa using hr
      | succ i => simpa using ih j h i

theorem firstTrue_lt : ∀ (x : List (List Bool)) (j : Nat), colSum x j = 1 →
    firstTrue x j < x.length := by
  intro x
  induction x with
  | nil => intro j h; simp [colSum] at h
  | cons row rest ih =>
    intro j h
    rw [colSum] at h
    rw [firstTrue]
    by_cases hr : row.getD j false = true
    · rw [if_pos hr]
      simp
    · rw [if_neg hr] at h ⊢
      rw [Nat.zero_add] at h
      have := ih j h
      simp only [List.length_cons]
      omega

theorem colSum_one_getD : ∀ (x : List (List Bool)) (j : Nat), colSum x j = 1 →
    ∀ i, (x.getD i []).getD j false = decide (firstTrue x j = i) := by
  intro x
  induction x with
  | nil => intro j h; simp [colSum] at h
  | cons row rest ih =>
    intro j h i
    rw [colSum] at h
    rw [firstTrue]
    by_cases hr : row.getD j false = true
    · rw [if_pos hr] at h ⊢
      have h0 : colSum rest j = 0 := by omega
      cases i with
      | zero => simpa using hr
      | succ i =>
        have hz := colSum_zero_getD rest j h0 i
        rw [List.getD_cons_succ, decide_eq_false (by omega : ¬(0 = i + 1))]
        exact hz
    · rw [if_neg hr] at h ⊢
      rw [Nat.zero_add] at h
      cases i with
      | zero =>
        rw [List.getD_cons_zero, decide_eq_false (by omega : ¬(firstTrue rest j + 1 = 0))]
        simpa using hr
      | succ i =>
        have hd : (firstTrue rest j + 1 = i + 1) ↔ (firstTrue rest j = i) := by omega
        rw [List.getD_cons_succ, decide_eq_decide.2 hd]
        exact ih j h i

theorem matrixOf_length (m : Nat) (g : List Nat) : (matrixOf m g).length = m := by
  simp [matrixOf]

theorem get_matrixOf (m : Nat) (g : List Nat) (i : Nat) (h : i < (matrixOf m g).length) :
    (matrixOf m g).get ⟨i, h⟩ = g.map (fun v => v == i) := by
  simp [matrixOf]

theorem feasible_eq_matrixOf (m n : Nat) (x : List (List Bool))
    (h : feasible m n x = true) : x = matrixOf m (funOf x n) := by
  obtain ⟨⟨hlen, hrows⟩, hcov⟩ := (feasible_iff m n x).1 h
  apply List.ext_get
  · rw [matrixOf_length, hlen]
  · intro i h1 h2
    rw [get_matrixOf]
    simp only [List.get_eq_getElem]
    have hrowlen : x[i].length = n := hrows _ (List.getElem_mem h1)
    apply List.ext_get
    · simp [funOf, hrowlen]
    · intro j hj1 hj2
      have hjn : j < n := hrowlen ▸ hj1
      have hone := colSum_one_getD x j (hcov j hjn) i
      rw [List.getD_eq_getElem x [] h1] at hone
      rw [List.getD_eq_getElem _ false (by simpa using hj1)] at hone
      simp only [List.get_eq_getElem]
      simp only [List.getElem_map, funOf, List.getElem_range]
      rw [hone]
      by_cases hfi : firstTrue x j = i
      · simp [hfi]
      · simp [hfi]

theorem funOf_mem_allFuns (m n : Nat) (x : List (List Bool))
    (h : feasible m n x = true) : funOf x n ∈ allFuns n m := by
  obtain ⟨⟨hlen, _⟩, hcov⟩ := (feasible_iff m n x).1 h
  rw [mem_allFuns]
  constructor
  · simp [funOf]
  · intro v hv
    rw [funOf] at hv
    simp only [List.mem_map, List.mem_range] at hv
    obtain ⟨j, hj, rfl⟩ := hv
    have := firstTrue_lt x j (hcov j hj)
    omega

theorem dot_map_eq_specLoad : ∀ (g jt : List Nat) (i : Nat),
    dot (g.map (fun v => v == i)) jt = specLoad jt g i := by
  intro g
  induction g with
  | nil => intro jt i; cases jt <;> rfl
  | cons v g ih =>
    intro jt i
    cases jt with
    | nil => rfl
    | cons t ts =>
      rw [List.map_cons]
      rw [show dot ((v == i) :: g.map (fun w => w == i)) (t :: ts)
            = (if (v == i) then t else 0) + dot (g.map (fun w => w == i)) ts from rfl]
      rw [show specLoad (t :: ts) (v :: g) i
            = (if v = i then t else 0) + specLoad ts g i from rfl]
      rw [ih ts i]
      by_cases hv : v = i
      · simp [hv]
      · simp [hv]

theorem rowLoads_matrixOf (jt : List Nat) (m : Nat) (g : List Nat) :
    rowLoads jt (matrixOf m g) = (List.range m).map (specLoad jt g) := by
  rw [rowLoads, matrixOf, List.map_map]
  apply List.map_congr_left
  intro i _
  exact dot_map_eq_specLoad g jt i

theorem solMakespan_matrixOf (jt : List Nat) (m : Nat) (g : List Nat) :
    solMakespan jt (matrixOf m g) = specMakespan jt m g := by
  rw [solMakespan, specMakespan, rowLoads_matrixOf]

theorem colSum_map_rows (g : List Nat) (j : Nat) (hj : j < g.length) :
    ∀ (is : List Nat), colSum (is.map (fun i => g.map (fun v => v == i))) j
      = is.countP (fun i => g.get ⟨j, hj⟩ == i) := by
  intro is
  induction is with
  | nil => rfl
  | cons i is ih =>
    rw [List.map_cons, colSum, ih, List.countP_cons]
    have hget : (g.map (fun v => v == i)).getD j false = (g.get ⟨j, hj⟩ == i) := by
      rw [List.getD_eq_getElem _ false (by simpa using hj)]
      simp [List.getElem_map]
    rw [hget]
    by_cases hgi : g.get ⟨j, hj⟩ = i
    · simp [hgi]
      omega
    · simp [hgi]
      omega

theorem countP_eq_range (m v : Nat) (hv : v < m) :
    (List.range m).countP (fun i => v == i) = 1 := by
  induction m with
  | zero => omega
  | succ m ih =>
    rw [List.range_succ, List.countP_append]
    by_cases h : v < m
    · rw [ih h]
      have : (List.countP (fun i => v == i) [m]) = 0 := by
        rw [List.countP_eq_zero]
        intro a ha
        simp at ha
        subst ha
        simp
        omega
      rw [this]
    · have hvm : v = m := by omega
      subst hvm
      have h0 : (List.range v).countP (fun i => v == i) = 0 := by
        rw [List.countP_eq_zero]
        intro a ha
        rw [List.mem_range] at ha
        simp
        omega
      rw [h0]
      simp

theorem feasible_matrixOf (m n : Nat) (g : List Nat)
    (hg : g ∈ allFuns n m) : feasible m n (matrixOf m g) = true := by
  obtain ⟨hlen, hlt⟩ := (mem_allFuns n m g).1 hg
  rw [feasible_iff]
  refine ⟨⟨matrixOf_length m g, ?_⟩, ?_⟩
  · intro row hrow
    rw [matrixOf] at hrow
    simp only [List.mem_map] at hrow
    obtain ⟨i, _, rfl⟩ := hrow
    simp [hlen]
  · intro j hj
    have hj' : j < g.length := by omega
    rw [matrixOf, colSum_map_rows g j hj']
    exact countP_eq_range m (g.get ⟨j, hj'⟩) (hlt _ (List.get_mem g _ _))

theorem matrixOf_mem_feasList (jt : List Nat) (m : Nat) (g : List Nat)
    (hg : g ∈ allFuns jt.length m) : matrixOf m g ∈ feasList jt m := by
  rw [feasList, List.mem_filter]
  obtain ⟨hlen, _⟩ := (mem_allFuns jt.length m g).1 hg
  constructor
  · rw [mem_allMatrices]
    refine ⟨matrixOf_length m g, ?_⟩
    intro row hrow
    rw [matrixOf] at hrow
    simp only [List.mem_map] at hrow
    obtain ⟨i, _, rfl⟩ := hrow
    simp [hlen]
  · exact feasible_matrixOf m jt.length g hg

theorem replicate_mem_allFuns (n m : Nat) (hm : 1 ≤ m) :
    List.replicate n 0 ∈ allFuns n m := by
  rw [mem_allFuns]
  constructor
  · simp
  · intro v hv
    rw [List.eq_of_mem_replicate hv]
    omega

theorem feasList_ne_nil (jt : List Nat) (m : Nat) (hm : 1 ≤ m) :
    feasList jt m ≠ [] :=
  List.ne_nil_of_mem
    (matrixOf_mem_feasList jt m (List.replicate jt.length 0)
      (replicate_mem_allFuns jt.length m hm))

theorem solve_eq_some (jt : List Nat) (m : Nat) (hm : 1 ≤ m) :
    ∃ x, solve jt m = some x :=
  pickBest_isSome jt (feasList jt m) (feasList_ne_nil jt m hm)

theorem solve_feasible (jt : List Nat) (m : Nat) (x : List (List Bool))
    (hx : solve jt m = some x) : feasible m jt.length x = true := by
  have := pickBest_mem jt (feasList jt m) x hx
  rw [feasList, List.mem_filter] at this
  exact this.2

theorem solve_optimal (jt : List Nat) (m : Nat) (x : List (List Bool))
    (hx : solve jt m = some x) :
    ∀ y ∈ feasList jt m, solMakespan jt x ≤ solMakespan jt y :=
  pickBest_le jt (feasList jt m) x hx

theorem scheduleValue_of_solve (jt : List Nat) (m : Nat) (x : List (List Bool))
    (hx : solve jt m = some x) : scheduleValue jt m = solMakespan jt x := by
  rw [scheduleValue, scheduleRun, hx]

theorem scheduleValue_eq_spec (jt : List Nat) (m : Nat) (hm : 1 ≤ m) :
    scheduleValue jt m = specOptMakespan jt m := by
  obtain ⟨x, hx⟩ := solve_eq_some jt m hm
  have hfeas := solve_feasible jt m x hx
  rw [scheduleValue_of_solve jt m x hx]
  apply Nat.le_antisymm
  · have hne : allFuns jt.length m ≠ [] :=
      List.ne_nil_of_mem (replicate_mem_allFuns jt.length m hm)
    have hmapne : (allFuns jt.length m).map (specMakespan jt m) ≠ [] := by
      simpa using hne
    obtain ⟨g₀, hg₀, hg₀v⟩ := List.mem_map.1 (listMin_mem _ hmapne)
    rw [specOptMakespan, ← hg₀v, ← solMakespan_matrixOf]
    exact solve_optimal jt m x hx _ (matrixOf_mem_feasList jt m g₀ hg₀)
  · have h1 : funOf x jt.length ∈ allFuns jt.length m :=
      funOf_mem_allFuns m jt.length x hfeas
    have h2 : specMakespan jt m (funOf x jt.length) = solMakespan jt x := by
      rw [← solMakespan_matrixOf, ← feasible_eq_matrixOf m jt.length x hfeas]
    rw [specOptMakespan, ← h2]
    exact listMin_le _ _ (List.mem_map_of_mem _ h1)

theorem specLoad_eq_zero : ∀ (jt g : List Nat) (i : Nat), (∀ v ∈ g, v ≠ i) →
    specLoad jt g i = 0 := by
  intro jt
  induction jt with
  | nil => intro g i _; cases g <;> rfl
  | cons t ts ih =>
    intro g i h
    cases g with
    | nil => rfl
    | cons v vs =>
      rw [show specLoad (t :: ts) (v :: vs) i
            = (if v = i then t else 0) + specLoad ts vs i from rfl]
      rw [if_neg (h v (List.mem_cons_self v vs))]
      rw [ih vs i (fun w hw => h w (List.mem_cons_of_mem v hw))]

theorem specMakespan_succ (jt : List Nat) (m : Nat) (g : List Nat)
    (h : ∀ v ∈ g, v < m) : specMakespan jt (m + 1) g = specMakespan jt m g := by
  rw [specMakespan, specMakespan, List.range_succ, List.map_append, List.foldr_append]
  rw [show (List.map (specLoad jt g) [m]).foldr max 0 = max (specLoad jt g m) 0 from rfl]
  rw [specLoad_eq_zero jt g m (fun v hv => by have := h v hv; omega)]
  rw [Nat.max_self]

theorem allFuns_succ_machines (n m : Nat) : ∀ g ∈ allFuns n m, g ∈ allFuns n (m + 1) := by
  intro g hg
  rw [mem_allFuns] at hg ⊢
  exact ⟨hg.1, fun v hv => Nat.lt_succ_of_lt (hg.2 v hv)⟩

theorem specOpt_machine_anti (jt : List Nat) (m : Nat) (hm : 1 ≤ m) :
    specOptMakespan jt (m + 1) ≤ specOptMakespan jt m := by
  have hne : allFuns jt.length m ≠ [] :=
    List.ne_nil_of_mem (replicate_mem_allFuns jt.length m hm)
  have hmapne : (allFuns jt.length m).map (specMakespan jt m) ≠ [] := by simpa using hne
  obtain ⟨g₀, hg₀, hv⟩ := List.mem_map.1 (listMin_mem _ hmapne)
  rw [specOptMakespan, specOptMakespan, ← hv]
  have hlt := ((mem_allFuns jt.length m g₀).1 hg₀).2
  calc listMin ((allFuns jt.length (m + 1)).map (specMakespan jt (m + 1)))
      ≤ specMakespan jt (m + 1) g₀ :=
        listMin_le _ _ (List.mem_map_of_mem _ (allFuns_succ_machines jt.length m g₀ hg₀))
    _ = specMakespan jt m g₀ := specMakespan_succ jt m g₀ hlt

theorem specLoad_le_append : ∀ (jt g ts vs : List Nat) (i : Nat),
    specLoad jt g i ≤ specLoad (jt ++ ts) (g ++ vs) i := by
  intro jt
  induction jt with
  | nil =>
    intro g ts vs i
    cases g <;> exact Nat.zero_le _
  | cons t jt ih =>
    intro g ts vs i
    cases g with
    | nil => exact Nat.zero_le _
    | cons v g =>
      rw [List.cons_append, List.cons_append]
      rw [show specLoad (t :: jt) (v :: g) i
            = (if v = i then t else 0) + specLoad jt g i from rfl]
      rw [show specLoad (t :: (jt ++ ts)) (v :: (g ++ vs)) i
            = (if v = i then t else 0) + specLoad (jt ++ ts) (g ++ vs) i from rfl]
      exact Nat.add_le_add_left (ih g ts vs i) _

theorem foldr_max_mono (f g : Nat → Nat) (h : ∀ i, f i ≤ g i) :
    ∀ (l : List Nat), (l.map f).foldr max 0 ≤ (l.map g).foldr max 0 := by
  intro l
  induction l with
  | nil => exact Nat.le_refl 0
  | cons a l ih =>
    rw [List.map_cons, List.map_cons, List.foldr_cons, List.foldr_cons]
    exact max_le_max (h a) ih

theorem specMakespan_le_append (jt ts g vs : List Nat) (m : Nat) :
    specMakespan jt m g ≤ specMakespan (jt ++ ts) m (g ++ vs) := by
  rw [specMakespan, specMakespan]
  exact foldr_max_mono _ _ (fun i => specLoad_le_append jt g ts vs i) _

theorem dropLast_mem_allFuns (n m : Nat) (g : List Nat)
    (hg : g ∈ allFuns (n + 1) m) : g.dropLast ∈ allFuns n m := by
  rw [mem_allFuns] at hg ⊢
  obtain ⟨hlen, hlt⟩ := hg
  constructor
  · rw [List.length_dropLast, hlen]
    omega
  · intro v hv
    exact hlt v (List.dropLast_subset g hv)

theorem specOpt_job_mono (jt : List Nat) (d m : Nat) (hm : 1 ≤ m) :
    specOptMakespan jt m ≤ specOptMakespan (jt ++ [d]) m := by
  have hlen : (jt ++ [d]).length = jt.length + 1 := by simp
  have hne : allFuns (jt ++ [d]).length m ≠ [] :=
    List.ne_nil_of_mem (replicate_mem_allFuns _ m hm)
  have hmapne : (allFuns (jt ++ [d]).length m).map (specMakespan (jt ++ [d]) m) ≠ [] := by
    simpa using hne
  obtain ⟨g₁, hg₁, hv⟩ := List.mem_map.1 (listMin_mem _ hmapne)
  rw [specOptMakespan, specOptMakespan, ← hv]
  have hg₁len : g₁.length = jt.length + 1 := by
    have := ((mem_allFuns _ m g₁).1 hg₁).1
    omega
  have hg₁ne : g₁ ≠ [] := by
    intro hnil
    rw [hnil] at hg₁len
    simp at hg₁len
  calc listMin ((allFuns jt.length m).map (specMakespan jt m))
      ≤ specMakespan jt m g₁.dropLast := by
        apply listMin_le
        apply List.mem_map_of_mem
        apply dropLast_mem_allFuns
        rw [← hlen]
        exact hg₁
    _ ≤ specMakespan (jt ++ [d]) m (g₁.dropLast ++ [g₁.getLast hg₁ne]) :=
        specMakespan_le_append jt [d] g₁.dropLast [g₁.getLast hg₁ne] m
    _ = specMakespan (jt ++ [d]) m g₁ := by
        rw [List.dropLast_append_getLast hg₁ne]

theorem allFuns_one : ∀ (n : Nat), allFuns n 1 = [List.replicate n 0] := by
  intro n
  induction n with
  | zero => rfl
  | succ n ih =>
    rw [allFuns, ih]
    rfl

theorem specLoad_replicate_zero :
    ∀ (jt : List Nat), specLoad jt (List.replicate jt.length 0) 0 = jt.sum := by
  intro jt
  induction jt with
  | nil => rfl
  | cons t ts ih =>
    rw [List.length_cons, List.replicate_succ]
    rw [show specLoad (t :: ts) (0 :: List.replicate ts.length 0) 0
          = (if (0 : Nat) = 0 then t else 0) + specLoad ts (List.replicate ts.length 0) 0
        from rfl]
    rw [if_pos rfl, ih, List.sum_cons]

theorem specOpt_one_eq_sum (jt : List Nat) : specOptMakespan jt 1 = jt.sum := by
  rw [specOptMakespan, allFuns_one]
  rw [show (([List.replicate jt.length 0]).map (specMakespan jt 1))
        = [specMakespan jt 1 (List.replicate jt.length 0)] from rfl]
  rw [show listMin [specMakespan jt 1 (List.replicate jt.length 0)]
        = specMakespan jt 1 (List.replicate jt.length 0) from rfl]
  rw [specMakespan]
  rw [show List.range 1 = [0] from rfl, List.map_singleton, List.foldr_cons, List.foldr_nil]
  rw [specLoad_replicate_zero]
  exact Nat.max_eq_left (Nat.zero_le _)

theorem exists_unique_machine (x : List (List Bool)) (j : Nat) (h : colSum x j = 1) :
    ∃! i, (x.getD i []).getD j false = true := by
  have hall := colSum_one_getD x j h
  refine ⟨firstTrue x j, ?_, ?_⟩
  · show (x.getD (firstTrue x j) []).getD j false = true
    rw [hall (firstTrue x j)]
    simp
  · intro i hi
    rw [hall i] at hi
    exact (of_decide_eq_true hi).symm

theorem traceOf_length (jt : List Nat) (m : Nat) (hm : 1 ≤ m) :
    (traceOf jt m).length = m + 1 := by
  obtain ⟨x, hx⟩ := solve_eq_some jt m hm
  have hfeas := solve_feasible jt m x hx
  have hxlen : x.length = m := (((feasible_iff m jt.length x).1 hfeas).1).1
  rw [traceOf, scheduleRun, hx]
  show (printResults (solMakespan jt x) x).length = m + 1
  rw [printResults, List.length_cons, List.length_map, List.enum_length, hxlen]

theorem scheduleRun_zero_machines (jt : List Nat) (h : jt ≠ []) :
    scheduleRun jt 0 = Except.error SolveErr.infeasible := by
  have hn : 0 < jt.length := List.length_pos.2 h
  have hfeas : feasible 0 jt.length [] = false := by
    rw [feasible, covers]
    have : (List.range jt.length).all (fun j => colSum [] j == 1) = false := by
      rw [List.all_eq_false]
      exact ⟨0, List.mem_range.2 hn, by rw [show colSum [] 0 = 0 from rfl]; simp⟩
    rw [this]
    simp
  have hlist : feasList jt 0 = [] := by
    rw [feasList, allMatrices]
    simp [List.filter_cons, hfeas]
  rw [scheduleRun, solve, hlist]
  rfl

/-- C1: for every non-empty sequence of positive integer job durations and
every number of machines at least 1, the value returned by
`schedule(job_times, n_machines)` equals the minimum, over all total
assignments of jobs to machines, of the maximum machine load (the optimal
makespan of the identical-parallel-machines problem). -/
theorem claim1_schedule_optimal (jt : List Nat) (m : Nat)
    (hne : jt ≠ []) (hpos : ∀ t ∈ jt, 0 < t) (hm : 1 ≤ m) :
    scheduleValue jt m = specOptMakespan jt m :=
  scheduleValue_eq_spec jt m hm

/-- C1 witness: concrete instance with two jobs and two machines. -/
theorem claim1_witness :
    ([2, 1] : List Nat) ≠ [] ∧ (∀ t ∈ ([2, 1] : List Nat), 0 < t) ∧ 1 ≤ 2 ∧
      scheduleValue [2, 1] 2 = specOptMakespan [2, 1] 2 :=
  ⟨by decide, by decide, by decide,
    claim1_schedule_optimal [2, 1] 2 (by decide) (by decide) (by decide)⟩

/-- C2: for every valid input, the makespan value returned by `schedule`
equals the maximum over machines of the sum of durations of the jobs
assigned to that machine (the dot product of its row) under the witness
assignment produced by the solve. -/
theorem claim2_makespan_eq_max_load (jt : List Nat) (m : Nat)
    (hm : 1 ≤ m) (hpos : ∀ t ∈ jt, 0 < t) :
    ∃ x, solve jt m = some x ∧ scheduleValue jt m = (rowLoads jt x).foldr max 0 := by
  obtain ⟨x, hx⟩ := solve_eq_some jt m hm
  exact ⟨x, hx, scheduleValue_of_solve jt m x hx⟩

/-- C2 witness: concrete instance with one job and one machine. -/
theorem claim2_witness :
    1 ≤ 1 ∧ (∀ t ∈ ([1] : List Nat), 0 < t) ∧
      ∃ x, solve [1] 1 = some x ∧ scheduleValue [1] 1 = (rowLoads [1] x).foldr max 0 :=
  ⟨by decide, by decide, claim2_makespan_eq_max_load [1] 1 (by decide) (by decide)⟩

/-- C3: for every valid input, the assignment found by the solve covers
every job exactly once: for each job index `j` there is exactly one machine
index `i` with `x[i][j] = 1` (no job split across machines, no job
dropped). -/
theorem claim3_each_job_on_one_machine (jt : List Nat) (m : Nat) (hm : 1 ≤ m) :
    ∃ x, solve jt m = some x ∧
      ∀ j < jt.length, ∃! i, (x.getD i []).getD j false = true := by
  obtain ⟨x, hx⟩ := solve_eq_some jt m hm
  have hcov := ((feasible_iff m jt.length x).1 (solve_feasible jt m x hx)).2
  exact ⟨x, hx, fun j hj => exists_unique_machine x j (hcov j hj)⟩

/-- C3 witness: concrete instance with one job and two machines. -/
theorem claim3_witness :
    1 ≤ 2 ∧ ∃ x, solve [3] 2 = some x ∧
      ∀ j < ([3] : List Nat).length, ∃! i, (x.getD i []).getD j false = true :=
  ⟨by decide, claim3_each_job_on_one_machine [3] 2 (by decide)⟩

/-- C4 counterexample: with `n_machines = 0 < 1` and a non-empty job list,
the run does not produce an `InvalidInput` error — the code performs no
input validation; the built model is infeasible and the failure comes from
the solver side instead. -/
theorem claim4_counterexample :
    scheduleRun [1] 0 ≠ Except.error SolveErr.invalidInput := by
  rw [scheduleRun_zero_machines [1] (by decide)]
  intro hcontra
  exact absurd (Except.error.inj hcontra) (by decide)

/-- C4 (amended): when called with `n_machines = 0` and a non-empty job
list, `schedule` raises no `InvalidInput` error; the constraint model is
infeasible (the coverage constraint for each job sums over no variables)
and the run fails on the solver side. -/
theorem claim4_no_invalid_input (jt : List Nat) (h : jt ≠ []) :
    scheduleRun jt 0 = Except.error SolveErr.infeasible :=
  scheduleRun_zero_machines jt h

/-- C4 witness: concrete instance of the amended claim. -/
theorem claim4_witness :
    ([1] : List Nat) ≠ [] ∧ scheduleRun [1] 0 = Except.error SolveErr.infeasible :=
  ⟨by decide, claim4_no_invalid_input [1] (by decide)⟩

/-- C5 counterexample: the value returned by `schedule` cannot contain the
per-machine assignment (nor an optimality flag): two inputs whose optimal
assignments differ (as shown by the printed machine lines) yield identical
return values, because only `solver.ObjectiveValue()` is returned. -/
theorem claim5_counterexample :
    scheduleValue [2] 1 = scheduleValue [1, 1] 1 ∧ traceOf [2] 1 ≠ traceOf [1, 1] 1 := by
  exact ⟨by decide, by decide⟩

/-- C5 (amended): for every valid input the solve call returns only the
scalar makespan value (`solver.ObjectiveValue()`); the mapping from machine
index to job indices is printed, not returned, and no optimality flag is
part of the return value. -/
theorem claim5_returns_only_makespan (jt : List Nat) (m : Nat) (hm : 1 ≤ m) :
    ∃ x, solve jt m = some x ∧
      scheduleRun jt m
        = Except.ok (solMakespan jt x, printResults (solMakespan jt x) x) := by
  obtain ⟨x, hx⟩ := solve_eq_some jt m hm
  exact ⟨x, hx, by rw [scheduleRun, hx]⟩

/-- C5 witness: concrete instance of the amended claim. -/
theorem claim5_witness :
    1 ≤ 1 ∧ ∃ x, solve [2] 1 = some x ∧
      scheduleRun [2] 1
        = Except.ok (solMakespan [2] x, printResults (solMakespan [2] x) x) :=
  ⟨by decide, claim5_returns_only_makespan [2] 1 (by decide)⟩

/-- C6 counterexample: the core solve operation does print: on a concrete
valid input the trace of `_print_results`, invoked by `Scheduler.schedule`
before returning, is non-empty. -/
theorem claim6_counterexample : traceOf [1] 1 ≠ ([] : List PrintEvent) := by
  decide

/-- C6 (amended): for every valid input, `Scheduler.schedule` performs
printing itself via `_print_results` before returning: the printed trace
has exactly one objective line plus one line per machine. -/
theorem claim6_prints_results (jt : List Nat) (m : Nat) (hm : 1 ≤ m) :
    (traceOf jt m).length = m + 1 :=
  traceOf_length jt m hm

/-- C6 witness: concrete instance of the amended claim. -/
theorem claim6_witness : 1 ≤ 3 ∧ (traceOf [1] 3).length = 3 + 1 :=
  ⟨by decide, claim6_prints_results [1] 3 (by decide)⟩

/-- C7: monotonicity of the returned optimal makespan: adding a machine
(jobs fixed) never increases it, and appending a job (machines fixed) never
decreases it. -/
theorem claim7_monotonicity (jt : List Nat) (m d : Nat) (hm : 1 ≤ m) :
    scheduleValue jt (m + 1) ≤ scheduleValue jt m ∧
      scheduleValue jt m ≤ scheduleValue (jt ++ [d]) m := by
  constructor
  · rw [scheduleValue_eq_spec jt (m + 1) (by omega), scheduleValue_eq_spec jt m hm]
    exact specOpt_machine_anti jt m hm
  · rw [scheduleValue_eq_spec jt m hm, scheduleValue_eq_spec (jt ++ [d]) m hm]
    exact specOpt_job_mono jt d m hm

/-- C7 witness: concrete instance with one job, one machine, one appended
job. -/
theorem claim7_witness :
    1 ≤ 1 ∧ scheduleValue [2] (1 + 1) ≤ scheduleValue [2] 1 ∧
      scheduleValue [2] 1 ≤ scheduleValue ([2] ++ [3]) 1 :=
  ⟨by decide, claim7_monotonicity [2] 1 3 (by decide)⟩

/-- C8: determinism of the makespan value: any two solver runs conforming
to the contract (each returning some optimal feasible solution of the
model) yield the identical makespan value, which is the value `schedule`
returns. -/
theorem claim8_deterministic_value (jt : List Nat) (m : Nat)
    (x₁ x₂ : List (List Bool)) (h₁ : optimalSol jt m x₁) (h₂ : optimalSol jt m x₂) :
    solMakespan jt x₁ = solMakespan jt x₂ ∧ solMakespan jt x₁ = scheduleValue jt m := by
  refine ⟨Nat.le_antisymm (h₁.2 x₂ h₂.1) (h₂.2 x₁ h₁.1), ?_⟩
  have hne : feasList jt m ≠ [] := List.ne_nil_of_mem h₁.1
  obtain ⟨y, hy⟩ := pickBest_isSome jt (feasList jt m) hne
  have hy' : solve jt m = some y := by rw [solve]; exact hy
  rw [scheduleValue_of_solve jt m y hy']
  exact Nat.le_antisymm (h₁.2 y (pickBest_mem jt _ y hy)) (pickBest_le jt _ y hy x₁ h₁.1)

/-- C8 witness: concrete optimal solutions for one job on one machine. -/
theorem claim8_witness :
    optimalSol [1] 1 [[true]] ∧ solMakespan [1] [[true]] = solMakespan [1] [[true]] ∧
      solMakespan [1] [[true]] = scheduleValue [1] 1 := by
  have h : optimalSol [1] 1 [[true]] := ⟨by decide, by decide⟩
  exact ⟨h, claim8_deterministic_value [1] 1 [[true]] [[true]] h h⟩

/-- C9: on the degenerate input of an empty job list with two machines,
`schedule` returns makespan 0 and prints an empty job set for each of the
two machines, rather than failing. -/
theorem claim9_empty_jobs :
    scheduleRun [] 2 = Except.ok (0, [PrintEvent.makespanLine 0,
      PrintEvent.machineLine 0 [], PrintEvent.machineLine 1 []]) := by
  rfl

/-- C10: for every job list and a single machine, `schedule` returns
exactly the sum of the job durations: the coverage constraint forces every
job onto machine 0. -/
theorem claim10_single_machine (jt : List Nat) : scheduleValue jt 1 = jt.sum := by
  rw [scheduleValue_eq_spec jt 1 (Nat.le_refl 1), specOpt_one_eq_sum]

end Scheduling
